import Mathlib

/-!
Shallow embedding of the experience-collection core of an A3C training
script: the `Player` step loop (`Player.play`), the return/advantage
estimator (`Player._memory_to_samples`) and the batch generator
(`generate_batches`).  Observations and action identifiers are coded as
natural numbers; rewards, value estimates, returns and advantages are
rational numbers; the stochastic policy query, the sampled action and the
environment's response on each simulated step are supplied as explicit
per-step oracle data.
-/

/-- One recorded environment step: the pre-step observation, the chosen
action, the observed reward and the model's value estimate at the
pre-step observation. -/
structure Transition where
  state : Nat
  action : Nat
  reward : ℚ
  value : ℚ
deriving DecidableEq, Repr

/-- One labeled training sample: observation, action, n-step return label
`ret` and advantage. -/
structure Sample where
  state : Nat
  action : Nat
  ret : ℚ
  advantage : ℚ
deriving DecidableEq, Repr

/-- The hyper-parameters a Player is constructed with. -/
structure Config where
  rewardSteps : Nat
  gamma : ℚ
  maxSteps : Nat
deriving DecidableEq, Repr

/-- The mutable fields of a Player that the step loop updates: current
observation, memory buffer, per-episode reward accumulator and per-episode
step counter. -/
structure PlayerState where
  state : Nat
  memory : List Transition
  episodeReward : ℚ
  stepIndex : Nat
deriving DecidableEq, Repr

/-- The oracle data one iteration of the step loop consumes: the model's
value estimate at the current observation, the action sampled from the
policy distribution, the environment's response to that action (new
observation, reward, done flag) and the observation `env.reset()` returns
if the episode ends on this step. -/
structure StepInput where
  value : ℚ
  action : Nat
  newState : Nat
  reward : ℚ
  done : Bool
  resetState : Nat
deriving DecidableEq, Repr

/-- The `for ... in reversed(self.memory)` loop of `_memory_to_samples`:
walk the transitions most-recent-first, updating `R := reward + R * gamma`
and emitting the sample `(state, action, R, R - value)` for each. -/
def samplesRev (gamma : ℚ) : ℚ → List Transition → List Sample
  | _, [] => []
  | R, t :: rest =>
    let R2 := t.reward + R * gamma
    ⟨t.state, t.action, R2, R2 - t.value⟩ :: samplesRev gamma R2 rest

/-- `Player._memory_to_samples`: on a terminal flush seed `R` with `0` and
consume the whole memory; otherwise pop the last transition, seed `R` with
its recorded value estimate and keep only that transition as the new
memory.  Popping from an empty memory raises in the source and is modeled
as `none`. -/
def memoryToSamples (gamma : ℚ) (memory : List Transition) (is_done : Bool) :
    Option (List Sample × List Transition) :=
  if is_done then
    some (samplesRev gamma 0 memory.reverse, [])
  else
    match memory.getLast? with
    | none => none
    | some last => some (samplesRev gamma last.value memory.dropLast.reverse, [last])

/-- One iteration of the `for` loop in `Player.play`: increment the step
counter, record the transition, then either flush terminally-or-not and
break (episode end or step budget exceeded), flush non-terminally when the
memory is full, or just advance.  The returned `Bool` says whether the
loop breaks after this iteration. -/
def playStep (cfg : Config) (ps : PlayerState) (inp : StepInput) :
    Option (List Sample × PlayerState × Bool) :=
  let stepIndex := ps.stepIndex + 1
  let t : Transition := ⟨ps.state, inp.action, inp.reward, inp.value⟩
  let memory := ps.memory ++ [t]
  let episodeReward := ps.episodeReward + inp.reward
  if inp.done || decide (cfg.maxSteps < stepIndex) then
    match memoryToSamples cfg.gamma memory inp.done with
    | none => none
    | some (samples, memory2) => some (samples, ⟨inp.resetState, memory2, 0, 0⟩, true)
  else if memory.length = cfg.rewardSteps + 1 then
    match memoryToSamples cfg.gamma memory false with
    | none => none
    | some (samples, memory2) =>
      some (samples, ⟨inp.newState, memory2, episodeReward, stepIndex⟩, false)
  else
    some ([], ⟨inp.newState, memory, episodeReward, stepIndex⟩, false)

/-- `Player.play(steps)`: run one loop iteration per element of the input
list (so `play` with a list of length `n` models `play(n)`), concatenating
the samples each iteration contributes; a break ends the call early and
the remaining inputs are not consumed. -/
def play (cfg : Config) : PlayerState → List StepInput → Option (List Sample × PlayerState)
  | ps, [] => some ([], ps)
  | ps, inp :: rest =>
    match playStep cfg ps inp with
    | none => none
    | some (samples, ps2, brk) =>
      if brk then some (samples, ps2)
      else
        match play cfg ps2 rest with
        | none => none
        | some (samples2, ps3) => some (samples ++ samples2, ps3)

/-- The `for player in players: samples.extend(player.play(1))` round of
`generate_batches`: advance every player one step in index order, each
with its own oracle datum, and concatenate the samples in that order. -/
def advanceAll (cfg : Config) :
    List PlayerState → List StepInput → Option (List Sample × List PlayerState)
  | [], _ => some ([], [])
  | _ :: _, [] => none
  | p :: ptail, inp :: itail =>
    match play cfg p [inp] with
    | none => none
    | some (s, p2) =>
      match advanceAll cfg ptail itail with
      | none => none
      | some (s2, ptail2) => some (s ++ s2, p2 :: ptail2)

/-- The `while len(samples) >= batch_size` loop of `generate_batches`:
repeatedly slice the leading `bs` samples off the pool.  The fuel
argument only bounds the iteration count; `emitChunks` passes the pool
length, which suffices whenever `0 < bs`. -/
def emitChunksGo (bs : Nat) : Nat → List Sample → List (List Sample) × List Sample
  | 0, pool => ([], pool)
  | fuel + 1, pool =>
    if bs ≤ pool.length then
      let r := emitChunksGo bs fuel (pool.drop bs)
      (pool.take bs :: r.1, r.2)
    else ([], pool)

/-- Slice the pool into leading chunks of size `bs` and a remainder
shorter than `bs`, in FIFO order. -/
def emitChunks (bs : Nat) (pool : List Sample) : List (List Sample) × List Sample :=
  emitChunksGo bs pool.length pool

/-- The yield payload of `generate_batches`: transpose a chunk of samples
into the four parallel columns and expose `(states, actions, advantages)`
as the input triple and `(returns, returns)` as the dual target. -/
def makeBatch (chunk : List Sample) :
    (List Nat × List Nat × List ℚ) × (List ℚ × List ℚ) :=
  ((chunk.map Sample.state, chunk.map Sample.action, chunk.map Sample.advantage),
   (chunk.map Sample.ret, chunk.map Sample.ret))

/-- A finite run of the `generate_batches` loop: one round per element of
`rounds` (each round carrying one oracle datum per player), extending the
pool with the round's samples and then emitting every full chunk.  Returns
the emitted chunks in emission order, the leftover pool and the final
player states. -/
def generateBatches (cfg : Config) (bs : Nat) :
    List PlayerState → List Sample → List (List StepInput) →
    Option (List (List Sample) × List Sample × List PlayerState)
  | players, pool, [] => some ([], pool, players)
  | players, pool, round :: rounds =>
    match advanceAll cfg players round with
    | none => none
    | some (s, players2) =>
      let er := emitChunks bs (pool ++ s)
      match generateBatches cfg bs players2 er.2 rounds with
      | none => none
      | some (chunks2, rest2, players3) => some (er.1 ++ chunks2, rest2, players3)

/-- The samples the players produce over a sequence of rounds, in
generation order (round by round, player 0 first within a round). -/
def producedSamples (cfg : Config) :
    List PlayerState → List (List StepInput) → Option (List Sample)
  | _, [] => some []
  | players, round :: rounds =>
    match advanceAll cfg players round with
    | none => none
    | some (s, players2) =>
      match producedSamples cfg players2 rounds with
      | none => none
      | some s2 => some (s ++ s2)

/-- Modeled from the spec: the chronologically-indexed return labels
`R_t = reward_t + gamma * R_{t+1}`, with `R_{T+1}` given by `seed`. -/
def specReturns (gamma seed : ℚ) : List Transition → List ℚ
  | [] => []
  | t :: rest =>
    (t.reward + gamma * (specReturns gamma seed rest).headD seed) ::
      specReturns gamma seed rest

/-- Modeled from the spec: the training sample a transition and its return
label determine — return label `R`, advantage `R - value_estimate`. -/
def specSample (p : Transition × ℚ) : Sample :=
  ⟨p.1.state, p.1.action, p.2, p.2 - p.1.value⟩

/-- Concrete fixture: the spec's worked example segment
`[(s0,a0,r0=1,v0=1/2), (s1,a1,r1=2,v1=3/10), (s2,a2,r2=3,v2=1/10)]`. -/
def exMemory : List Transition := [⟨0, 0, 1, 1/2⟩, ⟨1, 1, 2, 3/10⟩, ⟨2, 2, 3, 1/10⟩]

/-- Concrete fixture: a 3-step segment with integer scalars. -/
def exMem2 : List Transition := [⟨0, 0, 1, 2⟩, ⟨1, 1, 2, 3⟩, ⟨2, 2, 3, 4⟩]

/-- The transition `play` records on one step: pre-step observation,
sampled action, observed reward, value estimate. -/
def stepTransition (ps : PlayerState) (inp : StepInput) : Transition :=
  ⟨ps.state, inp.action, inp.reward, inp.value⟩

/-- Concrete fixture: the configuration the training script uses
(`reward_steps = 5`, `gamma` a generic discount, `max_steps = 40000`). -/
def exCfg : Config := ⟨5, 1/2, 40000⟩

/-- Concrete fixture: a freshly constructed player. -/
def exPS : PlayerState := ⟨0, [], 0, 0⟩

/-- Concrete fixture: a step on which the environment reports `done`. -/
def exDoneInput : StepInput := ⟨2, 1, 3, 1, true, 7⟩

/-- Concrete fixture: a plain step (no episode end, no flush trigger). -/
def exPlainInput : StepInput := ⟨2, 1, 3, 1, false, 7⟩

/-- Concrete fixture: a step budget of zero, so the first step already
exceeds it. -/
def truncCfg : Config := ⟨5, 1/2, 0⟩

/-- Concrete fixture: a step on which the environment does not report
`done` (used to trigger forced truncation under `truncCfg`). -/
def truncInput : StepInput := ⟨4, 2, 9, 3, false, 7⟩

/-- Concrete fixture: a configuration with `reward_steps = 0`. -/
def zeroCfg : Config := ⟨0, 1/2, 100⟩

/-- Concrete fixture: a neutral step for the `zeroCfg` runs. -/
def zstep : StepInput := ⟨0, 0, 1, 0, false, 9⟩

/-- Concrete fixture: the sample the terminal flush of `exPS` stepped with
`exDoneInput` produces (`R = 1`, advantage `1 - 2 = -1`). -/
def exSample1 : Sample := ⟨0, 1, 1, -1⟩

lemma samplesRev_length (gamma : ℚ) : ∀ (R : ℚ) (l : List Transition),
    (samplesRev gamma R l).length = l.length
  | _, [] => rfl
  | R, t :: rest => by
    simp only [samplesRev, List.length_cons]
    exact congrArg Nat.succ (samplesRev_length gamma _ rest)

lemma samplesRev_map_triple (gamma : ℚ) : ∀ (R : ℚ) (l : List Transition),
    (samplesRev gamma R l).map (fun s => (s.state, s.action, s.ret - s.advantage)) =
      l.map (fun t => (t.state, t.action, t.value))
  | _, [] => rfl
  | R, t :: rest => by
    simp only [samplesRev, List.map_cons]
    refine congrArg₂ _ ?_ (samplesRev_map_triple gamma _ rest)
    simp only [Prod.mk.injEq, true_and]
    ring

lemma samplesRev_map_pair (gamma : ℚ) : ∀ (R : ℚ) (l : List Transition),
    (samplesRev gamma R l).map (fun s => (s.state, s.action)) =
      l.map (fun t => (t.state, t.action))
  | _, [] => rfl
  | R, t :: rest => by
    simp only [samplesRev, List.map_cons]
    exact congrArg₂ _ rfl (samplesRev_map_pair gamma _ rest)

lemma specReturns_length (gamma seed : ℚ) : ∀ l : List Transition,
    (specReturns gamma seed l).length = l.length
  | [] => rfl
  | t :: rest => by
    simp only [specReturns, List.length_cons]
    exact congrArg Nat.succ (specReturns_length gamma seed rest)

lemma headD_concat {α : Type} (xs : List α) (a d : α) : (xs ++ [a]).headD d = xs.headD a := by
  cases xs <;> rfl

lemma specReturns_concat (gamma seed : ℚ) (last : Transition) :
    ∀ init : List Transition,
      specReturns gamma seed (init ++ [last]) =
        specReturns gamma (last.reward + gamma * seed) init ++
          [last.reward + gamma * seed]
  | [] => by simp [specReturns]
  | t :: rest => by
    have ih := specReturns_concat gamma seed last rest
    show specReturns gamma seed (t :: (rest ++ [last])) = _
    simp only [specReturns, ih, headD_concat, List.cons_append]

lemma samplesRev_eq_spec (gamma : ℚ) (l : List Transition) : ∀ seed : ℚ,
    samplesRev gamma seed l.reverse =
      ((l.zip (specReturns gamma seed l)).map specSample).reverse := by
  induction l using List.reverseRecOn with
  | nil => intro seed; rfl
  | append_singleton init last ih =>
    intro seed
    have hlen : init.length = (specReturns gamma (last.reward + gamma * seed) init).length :=
      (specReturns_length gamma _ init).symm
    rw [specReturns_concat, List.zip_append hlen, List.map_append, List.reverse_append,
        List.reverse_append, List.reverse_singleton]
    simp only [samplesRev, List.zip_cons_cons, List.zip_nil_right, List.map_cons,
      List.map_nil, List.reverse_cons, List.reverse_nil, List.nil_append, List.cons_append,
      List.singleton_append]
    rw [mul_comm seed gamma]
    exact congrArg₂ _ rfl (ih (last.reward + gamma * seed))

/-- Computed form of a terminal flush. -/
lemma memoryToSamples_true (gamma : ℚ) (memory : List Transition) :
    memoryToSamples gamma memory true = some (samplesRev gamma 0 memory.reverse, []) := rfl

/-- Computed form of a non-terminal flush of a non-empty memory. -/
lemma memoryToSamples_false_concat (gamma : ℚ) (init : List Transition) (last : Transition) :
    memoryToSamples gamma (init ++ [last]) false =
      some (samplesRev gamma last.value init.reverse, [last]) := by
  simp [memoryToSamples, List.getLast?_concat, List.dropLast_concat]

/-- A non-terminal flush of an empty memory is the popping error. -/
lemma memoryToSamples_false_nil (gamma : ℚ) : memoryToSamples gamma [] false = none := rfl

/-- C2 helper: a non-empty list splits off its last element. -/
lemma exists_concat_of_ne_nil {α : Type} (l : List α) (h : l ≠ []) :
    ∃ init last, l = init ++ [last] := by
  induction l with
  | nil => exact absurd rfl h
  | cons a rest ih =>
    cases rest with
    | nil => exact ⟨[], a, rfl⟩
    | cons b tail =>
      obtain ⟨init, last, hil⟩ := ih (by simp)
      exact ⟨a :: init, last, by simp [hil]⟩

/-- C2: every flush of a non-empty memory succeeds, its samples are exactly
the consumed transitions paired with the spec recurrence returns
(`R_t = reward_t + gamma * R_{t+1}`, seeded with `0` when terminal and with
the popped bootstrap transition's value estimate otherwise), each sample's
advantage is its return minus the recorded value estimate, and on a
non-terminal flush the bootstrap transition is retained, not sampled. -/
theorem c2_return_recurrence (gamma : ℚ) (memory : List Transition) (d : Bool)
    (h : memory ≠ []) :
    ∃ samples rest,
      memoryToSamples gamma memory d = some (samples, rest) ∧
      ((d = true ∧ rest = [] ∧
          samples = ((memory.zip (specReturns gamma 0 memory)).map specSample).reverse) ∨
        (d = false ∧ ∃ last, memory.getLast? = some last ∧ rest = [last] ∧
          samples = ((memory.dropLast.zip
            (specReturns gamma last.value memory.dropLast)).map specSample).reverse)) := by
  obtain ⟨init, last, hsplit⟩ := exists_concat_of_ne_nil memory h
  cases d with
  | true =>
    exact ⟨_, _, memoryToSamples_true gamma memory,
      Or.inl ⟨rfl, rfl, samplesRev_eq_spec gamma memory 0⟩⟩
  | false =>
    subst hsplit
    refine ⟨samplesRev gamma last.value init.reverse, [last],
      memoryToSamples_false_concat gamma init last,
      Or.inr ⟨rfl, last, List.getLast?_concat init, rfl, ?_⟩⟩
    rw [List.dropLast_concat]
    exact samplesRev_eq_spec gamma init last.value

/-- C2 witness: the spec's worked scenario, terminal case. -/
theorem c2_return_recurrence_witness :
    ∃ samples rest,
      memoryToSamples (1/2) exMemory true = some (samples, rest) ∧
      ((true = true ∧ rest = [] ∧
          samples = ((exMemory.zip (specReturns (1/2) 0 exMemory)).map specSample).reverse) ∨
        (true = false ∧ ∃ last, exMemory.getLast? = some last ∧ rest = [last] ∧
          samples = ((exMemory.dropLast.zip
            (specReturns (1/2) last.value exMemory.dropLast)).map specSample).reverse)) :=
  c2_return_recurrence (1/2) exMemory true (by simp [exMemory])

/-- C3: a terminal flush of a length-`L` memory yields exactly `L` samples
and an empty remaining memory; a non-terminal flush yields exactly `L - 1`
samples and retains exactly the popped last transition, unchanged. -/
theorem c3_flush_sizes (gamma : ℚ) (memory : List Transition) (h : memory ≠ []) :
    ∃ sT sF last,
      memoryToSamples gamma memory true = some (sT, []) ∧
      sT.length = memory.length ∧
      memory.getLast? = some last ∧
      memoryToSamples gamma memory false = some (sF, [last]) ∧
      sF.length = memory.length - 1 := by
  obtain ⟨init, last, hsplit⟩ := exists_concat_of_ne_nil memory h
  subst hsplit
  refine ⟨samplesRev gamma 0 (init ++ [last]).reverse, samplesRev gamma last.value init.reverse,
    last, memoryToSamples_true gamma (init ++ [last]), ?_, List.getLast?_concat init,
    memoryToSamples_false_concat gamma init last, ?_⟩
  · rw [samplesRev_length, List.length_reverse]
  · rw [samplesRev_length, List.length_reverse, List.length_append, List.length_singleton]
    simp

/-- C3 witness: a concrete 3-element memory. -/
theorem c3_flush_sizes_witness :
    ∃ sT sF last,
      memoryToSamples 1 exMem2 true = some (sT, []) ∧
      sT.length = exMem2.length ∧
      exMem2.getLast? = some last ∧
      memoryToSamples 1 exMem2 false = some (sF, [last]) ∧
      sF.length = exMem2.length - 1 :=
  c3_flush_sizes 1 exMem2 (by simp [exMem2])

/-- C4: the samples of a flush are emitted in reverse chronological order
of the consumed transitions — the sample list's (state, action) column is
exactly the reverse of the consumed transitions' (state, action) column. -/
theorem c4_reverse_order (gamma : ℚ) (memory : List Transition) (d : Bool)
    (samples : List Sample) (rest : List Transition)
    (h : memoryToSamples gamma memory d = some (samples, rest)) :
    samples.map (fun s => (s.state, s.action)) =
      ((if d then memory else memory.dropLast).map (fun t => (t.state, t.action))).reverse := by
  cases d with
  | true =>
    rw [memoryToSamples_true] at h
    obtain ⟨hs, hr⟩ : samplesRev gamma 0 memory.reverse = samples ∧ [] = rest := by
      simpa using h
    rw [← hs, samplesRev_map_pair, List.map_reverse]
    simp
  | false =>
    by_cases hm : memory = []
    · subst hm
      rw [memoryToSamples_false_nil] at h
      exact absurd h (by simp)
    · obtain ⟨init, last, hsplit⟩ := exists_concat_of_ne_nil memory hm
      subst hsplit
      rw [memoryToSamples_false_concat] at h
      obtain ⟨hs, hr⟩ : samplesRev gamma last.value init.reverse = samples ∧ [last] = rest := by
        simpa using h
      rw [← hs, samplesRev_map_pair, List.map_reverse]
      simp [List.dropLast_concat]

/-- C4 witness: a concrete non-terminal flush. -/
theorem c4_reverse_order_witness :
    (samplesRev 1 4 exMem2.dropLast.reverse).map (fun s => (s.state, s.action)) =
      ((if false then exMem2 else exMem2.dropLast).map (fun t => (t.state, t.action))).reverse :=
  c4_reverse_order 1 exMem2 false (samplesRev 1 4 exMem2.dropLast.reverse) [⟨2, 2, 3, 4⟩]
    (by with_unfolding_all rfl)

/-- Computed form of a step on which the environment reports `done`. -/
lemma playStep_done (cfg : Config) (ps : PlayerState) (inp : StepInput)
    (hd : inp.done = true) :
    playStep cfg ps inp =
      some (samplesRev cfg.gamma 0 (ps.memory ++ [stepTransition ps inp]).reverse,
        ⟨inp.resetState, [], 0, 0⟩, true) := by
  simp [playStep, hd, memoryToSamples_true, stepTransition]

/-- Computed form of a step that exceeds the per-episode step budget while
the environment's `done` flag is false: the flush is passed
`is_done = false`, so it pops the just-recorded transition, seeds `R` with
its value estimate, and keeps it as the whole memory. -/
lemma playStep_truncation (cfg : Config) (ps : PlayerState) (inp : StepInput)
    (hd : inp.done = false) (ht : cfg.maxSteps < ps.stepIndex + 1) :
    playStep cfg ps inp =
      some (samplesRev cfg.gamma inp.value ps.memory.reverse,
        ⟨inp.resetState, [stepTransition ps inp], 0, 0⟩, true) := by
  have hb : decide (cfg.maxSteps < ps.stepIndex + 1) = true := decide_eq_true ht
  simp only [playStep, hd, hb, Bool.or_true, Bool.false_or, if_true]
  rw [memoryToSamples_false_concat]
  rfl

/-- Computed form of a step that fills the memory to `reward_steps + 1`
without ending the episode: flush non-terminally and continue. -/
lemma playStep_full (cfg : Config) (ps : PlayerState) (inp : StepInput)
    (hd : inp.done = false) (ht : ¬cfg.maxSteps < ps.stepIndex + 1)
    (hl : ps.memory.length + 1 = cfg.rewardSteps + 1) :
    playStep cfg ps inp =
      some (samplesRev cfg.gamma inp.value ps.memory.reverse,
        ⟨inp.newState, [stepTransition ps inp], ps.episodeReward + inp.reward,
          ps.stepIndex + 1⟩, false) := by
  have hb : decide (cfg.maxSteps < ps.stepIndex + 1) = false := decide_eq_false ht
  simp only [playStep, hd, hb, Bool.or_false, Bool.false_or, if_false, Bool.false_eq_true,
    List.length_append, List.length_singleton, hl, if_true, if_pos rfl]
  rw [memoryToSamples_false_concat]
  rfl

/-- Computed form of a plain step: no episode end, no truncation, memory
not yet full — just record the transition and advance. -/
lemma playStep_plain (cfg : Config) (ps : PlayerState) (inp : StepInput)
    (hd : inp.done = false) (ht : ¬cfg.maxSteps < ps.stepIndex + 1)
    (hl : ps.memory.length + 1 ≠ cfg.rewardSteps + 1) :
    playStep cfg ps inp =
      some ([], ⟨inp.newState, ps.memory ++ [stepTransition ps inp],
        ps.episodeReward + inp.reward, ps.stepIndex + 1⟩, false) := by
  have hb : decide (cfg.maxSteps < ps.stepIndex + 1) = false := decide_eq_false ht
  simp only [playStep, hd, hb, Bool.or_false, Bool.false_or, if_false, Bool.false_eq_true,
    List.length_append, List.length_singleton]
  rw [if_neg hl]
  rfl

/-- A breaking step ends the call: the remaining inputs are ignored. -/
lemma play_cons_break (cfg : Config) (ps : PlayerState) (inp : StepInput)
    (s : List Sample) (p2 : PlayerState) (rest : List StepInput)
    (h : playStep cfg ps inp = some (s, p2, true)) :
    play cfg ps (inp :: rest) = some (s, p2) := by
  simp [play, h]

/-- A non-breaking step prepends its samples to the rest of the call. -/
lemma play_cons_continue (cfg : Config) (ps : PlayerState) (inp : StepInput)
    (s : List Sample) (p2 : PlayerState) (rest : List StepInput)
    (h : playStep cfg ps inp = some (s, p2, false)) :
    play cfg ps (inp :: rest) =
      (play cfg p2 rest).map (fun pr => (s ++ pr.1, pr.2)) := by
  simp only [play, h]
  cases hpr : play cfg p2 rest with
  | none => rfl
  | some pr =>
    obtain ⟨a, b⟩ := pr
    rfl

/-- C1 counterexample: a player with step budget `0` takes one step that
does not end the episode, so `step_index > max_steps` triggers with
`done = False`.  The flush produces no sample from the single-transition
memory and retains that transition as a bootstrap — whereas a terminal
flush of the same memory (second conjunct) would produce one sample with
an `R = 0` seed and retain nothing. -/
theorem c1_counterexample :
    play truncCfg exPS [truncInput] = some ([], ⟨7, [⟨0, 2, 3, 4⟩], 0, 0⟩) ∧
    memoryToSamples truncCfg.gamma [⟨0, 2, 3, 4⟩] true = some ([⟨0, 2, 3, -1⟩], []) := by
  constructor
  · with_unfolding_all rfl
  · with_unfolding_all rfl

/-- C1 (amended): when a step triggers the forced-truncation condition
(`step_index > max_steps`) while the environment's `done` flag is false,
the flush is non-terminal: the return seed is the just-recorded
transition's value estimate (not `0`), that transition is popped rather
than converted into a sample, and it is retained in memory as the
bootstrap transition. -/
theorem c1_truncation_flush (cfg : Config) (ps : PlayerState) (inp : StepInput)
    (hd : inp.done = false) (ht : cfg.maxSteps < ps.stepIndex + 1) :
    playStep cfg ps inp =
      some (samplesRev cfg.gamma inp.value ps.memory.reverse,
        ⟨inp.resetState, [stepTransition ps inp], 0, 0⟩, true) :=
  playStep_truncation cfg ps inp hd ht

/-- C1 witness: the amended theorem at the concrete truncation fixture. -/
theorem c1_truncation_flush_witness :
    playStep truncCfg exPS truncInput =
      some (samplesRev truncCfg.gamma truncInput.value exPS.memory.reverse,
        ⟨truncInput.resetState, [stepTransition exPS truncInput], 0, 0⟩, true) :=
  c1_truncation_flush truncCfg exPS truncInput rfl (by decide)

/-- C8: if a step ends the episode or exceeds the step budget, the episode
step counter and reward accumulator are reset to zero, the player's state
is re-drawn from the environment reset, and the step loop stops — the
remaining inputs of the call are never consumed. -/
theorem c8_reset_and_early_stop (cfg : Config) (ps : PlayerState) (inp : StepInput)
    (rest : List StepInput) (h : inp.done = true ∨ cfg.maxSteps < ps.stepIndex + 1) :
    play cfg ps (inp :: rest) = play cfg ps [inp] ∧
    ∃ samples memory2,
      play cfg ps (inp :: rest) = some (samples, ⟨inp.resetState, memory2, 0, 0⟩) := by
  have hstep : ∃ samples memory2,
      playStep cfg ps inp = some (samples, ⟨inp.resetState, memory2, 0, 0⟩, true) := by
    cases hd : inp.done with
    | false =>
      rcases h with h | h
      · rw [hd] at h
        exact absurd h (by simp)
      · exact ⟨_, _, playStep_truncation cfg ps inp hd h⟩
    | true => exact ⟨_, _, playStep_done cfg ps inp hd⟩
  obtain ⟨samples, memory2, hstep⟩ := hstep
  refine ⟨?_, samples, memory2, play_cons_break cfg ps inp _ _ rest hstep⟩
  rw [play_cons_break cfg ps inp _ _ rest hstep, play_cons_break cfg ps inp _ _ [] hstep]

/-- C8 witness: a `done` step followed by an ignored extra input. -/
theorem c8_reset_and_early_stop_witness :
    play exCfg exPS [exDoneInput, exPlainInput] = play exCfg exPS [exDoneInput] ∧
    ∃ samples memory2,
      play exCfg exPS [exDoneInput, exPlainInput] =
        some (samples, ⟨exDoneInput.resetState, memory2, 0, 0⟩) :=
  c8_reset_and_early_stop exCfg exPS exDoneInput [exPlainInput] (Or.inl rfl)

/-- One step keeps the memory length bounded by `reward_steps`, provided
`reward_steps` is at least one. -/
lemma playStep_memory_bound (cfg : Config) (ps : PlayerState) (inp : StepInput)
    (s : List Sample) (p2 : PlayerState) (brk : Bool) (h1 : 1 ≤ cfg.rewardSteps)
    (hm : ps.memory.length ≤ cfg.rewardSteps)
    (h : playStep cfg ps inp = some (s, p2, brk)) :
    p2.memory.length ≤ cfg.rewardSteps := by
  cases hd : inp.done with
  | true =>
    rw [playStep_done cfg ps inp hd] at h
    obtain ⟨-, h2, -⟩ : _ ∧ _ ∧ _ := by simpa using h
    rw [← h2]
    exact Nat.zero_le _
  | false =>
    by_cases ht : cfg.maxSteps < ps.stepIndex + 1
    · rw [playStep_truncation cfg ps inp hd ht] at h
      obtain ⟨-, h2, -⟩ : _ ∧ _ ∧ _ := by simpa using h
      rw [← h2]
      exact h1
    · by_cases hl : ps.memory.length + 1 = cfg.rewardSteps + 1
      · rw [playStep_full cfg ps inp hd ht hl] at h
        obtain ⟨-, h2, -⟩ : _ ∧ _ ∧ _ := by simpa using h
        rw [← h2]
        exact h1
      · rw [playStep_plain cfg ps inp hd ht hl] at h
        obtain ⟨-, h2, -⟩ : _ ∧ _ ∧ _ := by simpa using h
        rw [← h2]
        simp only [List.length_append, List.length_singleton]
        omega

/-- A whole `play` call keeps the memory length bounded by
`reward_steps`, provided `reward_steps` is at least one. -/
lemma play_memory_bound (cfg : Config) (h1 : 1 ≤ cfg.rewardSteps) :
    ∀ (inps : List StepInput) (ps : PlayerState) (res : List Sample) (ps2 : PlayerState),
      ps.memory.length ≤ cfg.rewardSteps → play cfg ps inps = some (res, ps2) →
      ps2.memory.length ≤ cfg.rewardSteps
  | [], ps, res, ps2, hm, h => by
    obtain ⟨-, h2⟩ : _ ∧ _ := by simpa [play] using h
    rw [← h2]
    exact hm
  | inp :: rest, ps, res, ps2, hm, h => by
    simp only [play] at h
    cases hps : playStep cfg ps inp with
    | none => rw [hps] at h; exact absurd h (by simp)
    | some out =>
      obtain ⟨s, p2, brk⟩ := out
      rw [hps] at h
      have hb := playStep_memory_bound cfg ps inp s p2 brk h1 hm hps
      cases brk with
      | true =>
        obtain ⟨-, h2⟩ : _ ∧ _ := by simpa using h
        rw [← h2]
        exact hb
      | false =>
        simp only [Bool.false_eq_true, if_false] at h
        cases hpr : play cfg p2 rest with
        | none => rw [hpr] at h; exact absurd h (by simp)
        | some pr =>
          obtain ⟨res2, ps3⟩ := pr
          rw [hpr] at h
          obtain ⟨-, h2⟩ : _ ∧ _ := by simpa using h
          rw [← h2]
          exact play_memory_bound cfg h1 rest p2 res2 ps3 hb hpr

/-- C7 counterexample: with `reward_steps = 0` the bound fails — after two
plain steps the memory holds `2 > reward_steps + 1 = 1` transitions,
because the full-memory flush only fires at length exactly
`reward_steps + 1` and lengths jump from `1` to `2` after the first
non-terminal flush retains a bootstrap transition. -/
theorem c7_counterexample :
    (play zeroCfg exPS [zstep, zstep]).map (fun r => r.2.memory.length) = some 2 ∧
    zeroCfg.rewardSteps + 1 < 2 := by
  constructor
  · with_unfolding_all rfl
  · decide

/-- C7 (amended): for every player whose `reward_steps` is at least one
(as in every shipped configuration) and whose memory respects the
`length ≤ reward_steps` invariant, any `play` call preserves that bound —
so the in-step memory, one freshly appended transition, never exceeds
`reward_steps + 1` — and the memory a flush leaves behind always has
exactly zero (terminal) or one (non-terminal) element. -/
theorem c7_memory_invariant (cfg : Config) (h1 : 1 ≤ cfg.rewardSteps)
    (ps : PlayerState) (inps : List StepInput) (hm : ps.memory.length ≤ cfg.rewardSteps)
    (res : List Sample) (ps2 : PlayerState) (h : play cfg ps inps = some (res, ps2)) :
    ps2.memory.length ≤ cfg.rewardSteps ∧
    ∀ (gamma : ℚ) (memory : List Transition) (d : Bool) samples rest2,
      memoryToSamples gamma memory d = some (samples, rest2) →
      rest2.length = if d then 0 else 1 := by
  refine ⟨play_memory_bound cfg h1 inps ps res ps2 hm h, ?_⟩
  intro gamma memory d samples rest2 hf
  cases d with
  | true =>
    rw [memoryToSamples_true] at hf
    obtain ⟨-, h2⟩ : _ ∧ _ := by simpa using hf
    simp [h2]
  | false =>
    by_cases hmem : memory = []
    · subst hmem
      rw [memoryToSamples_false_nil] at hf
      exact absurd hf (by simp)
    · obtain ⟨init, last, hsplit⟩ := exists_concat_of_ne_nil memory hmem
      subst hsplit
      rw [memoryToSamples_false_concat] at hf
      obtain ⟨-, h2⟩ : _ ∧ _ := by simpa using hf
      simp [← h2]

/-- C7 witness: the amended invariant at the shipped configuration. -/
theorem c7_memory_invariant_witness :
    ([] : List Sample).length ≤ exCfg.rewardSteps ∧
    ∀ (gamma : ℚ) (memory : List Transition) (d : Bool) samples rest2,
      memoryToSamples gamma memory d = some (samples, rest2) →
      rest2.length = if d then 0 else 1 := by
  have h := c7_memory_invariant exCfg (by decide) exPS [exPlainInput] (by decide)
    [] ⟨exPlainInput.newState, [stepTransition exPS exPlainInput],
      exPS.episodeReward + exPlainInput.reward, exPS.stepIndex + 1⟩
    (by with_unfolding_all rfl)
  exact ⟨Nat.zero_le _, h.2⟩

/-- C9: on any single simulated step, the break flag is set exactly when
the episode ends or the step budget is exceeded; the step's samples come
from at most one `_memory_to_samples` call on the post-append memory (the
episode-end/truncation flush and the memory-full flush are exclusive
branches); and a non-breaking step — including a memory-full flush — lets
the loop continue with the remaining inputs. -/
theorem c9_exclusive_flush (cfg : Config) (ps : PlayerState) (inp : StepInput)
    (samples : List Sample) (ps2 : PlayerState) (brk : Bool)
    (h : playStep cfg ps inp = some (samples, ps2, brk)) :
    (brk = true ↔ (inp.done = true ∨ cfg.maxSteps < ps.stepIndex + 1)) ∧
    ((samples = [] ∧ ps2.memory = ps.memory ++ [stepTransition ps inp]) ∨
      ∃ d rest2,
        memoryToSamples cfg.gamma (ps.memory ++ [stepTransition ps inp]) d =
          some (samples, rest2) ∧ ps2.memory = rest2) ∧
    (brk = false → ∀ rest, play cfg ps (inp :: rest) =
      (play cfg ps2 rest).map (fun pr => (samples ++ pr.1, pr.2))) := by
  cases hd : inp.done with
  | true =>
    rw [playStep_done cfg ps inp hd] at h
    obtain ⟨h1, h2, h3⟩ : _ ∧ _ ∧ _ := by simpa using h
    subst h1
    subst h2
    subst h3
    refine ⟨by simp [hd], Or.inr ⟨true, [], ?_, ?_⟩, fun hc => Bool.noConfusion hc⟩
    · simpa using memoryToSamples_true cfg.gamma (ps.memory ++ [stepTransition ps inp])
    · rfl
  | false =>
    by_cases ht : cfg.maxSteps < ps.stepIndex + 1
    · rw [playStep_truncation cfg ps inp hd ht] at h
      obtain ⟨h1, h2, h3⟩ : _ ∧ _ ∧ _ := by simpa using h
      subst h1
      subst h2
      subst h3
      refine ⟨by simp [hd, ht], Or.inr ⟨false, [stepTransition ps inp], ?_, rfl⟩,
        fun hc => Bool.noConfusion hc⟩
      exact memoryToSamples_false_concat cfg.gamma ps.memory (stepTransition ps inp)
    · by_cases hl : ps.memory.length + 1 = cfg.rewardSteps + 1
      · rw [playStep_full cfg ps inp hd ht hl] at h
        obtain ⟨h1, h2, h3⟩ : _ ∧ _ ∧ _ := by simpa using h
        subst h1
        subst h2
        subst h3
        refine ⟨by simp [hd, ht], Or.inr ⟨false, [stepTransition ps inp], ?_, rfl⟩,
          fun _ rest => ?_⟩
        · exact memoryToSamples_false_concat cfg.gamma ps.memory (stepTransition ps inp)
        · exact play_cons_continue cfg ps inp _ _ rest (playStep_full cfg ps inp hd ht hl)
      · rw [playStep_plain cfg ps inp hd ht hl] at h
        obtain ⟨h1, h2, h3⟩ : _ ∧ _ ∧ _ := by simpa using h
        subst h1
        subst h2
        subst h3
        refine ⟨by simp [hd, ht], Or.inl ⟨rfl, rfl⟩, fun _ rest => ?_⟩
        exact play_cons_continue cfg ps inp _ _ rest (playStep_plain cfg ps inp hd ht hl)

/-- C9 witness: a plain step of a fresh player under the shipped
configuration. -/
theorem c9_exclusive_flush_witness :
    ((false = true) ↔ (exPlainInput.done = true ∨ exCfg.maxSteps < exPS.stepIndex + 1)) ∧
    ((([] : List Sample) = [] ∧
        (⟨3, [⟨0, 1, 1, 2⟩], 1, 1⟩ : PlayerState).memory =
          exPS.memory ++ [stepTransition exPS exPlainInput]) ∨
      ∃ d rest2,
        memoryToSamples exCfg.gamma (exPS.memory ++ [stepTransition exPS exPlainInput]) d =
          some ([], rest2) ∧ (⟨3, [⟨0, 1, 1, 2⟩], 1, 1⟩ : PlayerState).memory = rest2) ∧
    (false = false → ∀ rest, play exCfg exPS (exPlainInput :: rest) =
      (play exCfg (⟨3, [⟨0, 1, 1, 2⟩], 1, 1⟩ : PlayerState) rest).map
        (fun pr => ([] ++ pr.1, pr.2))) :=
  c9_exclusive_flush exCfg exPS exPlainInput [] ⟨3, [⟨0, 1, 1, 2⟩], 1, 1⟩ false
    (by with_unfolding_all rfl)

/-- The last sample a flush emits is derived from the chronologically
first consumed transition: same observation and action, and its value
estimate is recoverable as return minus advantage. -/
lemma samplesRev_getLast_head (gamma R : ℚ) (l : List Transition) (t0 : Transition)
    (h : l.head? = some t0) :
    (samplesRev gamma R l.reverse).getLast?.map
        (fun s => (s.state, s.action, s.ret - s.advantage)) =
      some (t0.state, t0.action, t0.value) := by
  rw [← List.getLast?_map, samplesRev_map_triple, List.getLast?_map, List.getLast?_reverse, h]
  rfl

/-- C10: a forced-truncation step with `done = False` pops the
just-recorded transition as a bootstrap and retains it as the whole
memory across the episode reset (first conjunct); steps that flush
nothing only append to memory, keeping the carried transition at the
front (second conjunct); and any flush of a memory that still starts with
the carried transition emits a sample derived from it — same observation
and action, value estimate recoverable as return minus advantage — as its
last sample (third conjunct). -/
theorem c10_bootstrap_carryover (cfg : Config) (ps : PlayerState) (inp : StepInput)
    (hd : inp.done = false) (ht : cfg.maxSteps < ps.stepIndex + 1) :
    playStep cfg ps inp =
      some (samplesRev cfg.gamma inp.value ps.memory.reverse,
        ⟨inp.resetState, [stepTransition ps inp], 0, 0⟩, true) ∧
    (∀ (q : PlayerState) (i : StepInput) (q2 : PlayerState), 1 ≤ cfg.rewardSteps →
      playStep cfg q i = some ([], q2, false) →
      q2.memory = q.memory ++ [stepTransition q i]) ∧
    (∀ (gamma : ℚ) (memory : List Transition) (d : Bool) (t0 : Transition)
        (samples : List Sample) (rest2 : List Transition),
      memoryToSamples gamma memory d = some (samples, rest2) →
      memory.head? = some t0 → (d = true ∨ 2 ≤ memory.length) →
      samples.getLast?.map (fun s => (s.state, s.action, s.ret - s.advantage)) =
        some (t0.state, t0.action, t0.value)) := by
  refine ⟨playStep_truncation cfg ps inp hd ht, ?_, ?_⟩
  · intro q i q2 hrs hq
    cases hdq : i.done with
    | true =>
      rw [playStep_done cfg q i hdq] at hq
      simp at hq
    | false =>
      by_cases htq : cfg.maxSteps < q.stepIndex + 1
      · rw [playStep_truncation cfg q i hdq htq] at hq
        simp at hq
      · by_cases hlq : q.memory.length + 1 = cfg.rewardSteps + 1
        · rw [playStep_full cfg q i hdq htq hlq] at hq
          obtain ⟨hs, -⟩ : _ ∧ _ := by simpa using hq
          have hlen := congrArg List.length hs
          rw [samplesRev_length, List.length_reverse, List.length_nil] at hlen
          omega
        · rw [playStep_plain cfg q i hdq htq hlq] at hq
          have h2 : (⟨i.newState, q.memory ++ [stepTransition q i],
              q.episodeReward + i.reward, q.stepIndex + 1⟩ : PlayerState) = q2 := by
            simpa using hq
          rw [← h2]
  · intro gamma memory d t0 samples rest2 hmf hh hlen
    cases d with
    | true =>
      rw [memoryToSamples_true] at hmf
      obtain ⟨hs, -⟩ : _ ∧ _ := by simpa using hmf
      rw [← hs]
      exact samplesRev_getLast_head gamma 0 memory t0 hh
    | false =>
      by_cases hmem : memory = []
      · subst hmem
        rw [memoryToSamples_false_nil] at hmf
        exact absurd hmf (by simp)
      · obtain ⟨init, last, hsplit⟩ := exists_concat_of_ne_nil memory hmem
        subst hsplit
        rw [memoryToSamples_false_concat] at hmf
        obtain ⟨hs, -⟩ : _ ∧ _ := by simpa using hmf
        rw [← hs]
        cases init with
        | nil =>
          rcases hlen with hlen | hlen
          · exact absurd hlen (by simp)
          · rw [List.nil_append, List.length_singleton] at hlen
            omega
        | cons a tail =>
          have ha : t0 = a := by
            rw [List.cons_append, List.head?_cons] at hh
            exact (Option.some.injEq .. ▸ hh.symm)
          subst ha
          exact samplesRev_getLast_head gamma last.value (t0 :: tail) t0 rfl

/-- C10 witness: the concrete truncation fixture. -/
theorem c10_bootstrap_carryover_witness :
    playStep truncCfg exPS truncInput =
      some (samplesRev truncCfg.gamma truncInput.value exPS.memory.reverse,
        ⟨truncInput.resetState, [stepTransition exPS truncInput], 0, 0⟩, true) ∧
    (∀ (q : PlayerState) (i : StepInput) (q2 : PlayerState), 1 ≤ truncCfg.rewardSteps →
      playStep truncCfg q i = some ([], q2, false) →
      q2.memory = q.memory ++ [stepTransition q i]) ∧
    (∀ (gamma : ℚ) (memory : List Transition) (d : Bool) (t0 : Transition)
        (samples : List Sample) (rest2 : List Transition),
      memoryToSamples gamma memory d = some (samples, rest2) →
      memory.head? = some t0 → (d = true ∨ 2 ≤ memory.length) →
      samples.getLast?.map (fun s => (s.state, s.action, s.ret - s.advantage)) =
        some (t0.state, t0.action, t0.value)) :=
  c10_bootstrap_carryover truncCfg exPS truncInput rfl (by decide)

/-- The slicing loop with enough fuel: every chunk has length `bs`, the
chunks followed by the remainder reproduce the pool, and the remainder is
shorter than `bs`. -/
lemma emitChunksGo_spec (bs : Nat) (hbs : 0 < bs) :
    ∀ (fuel : Nat) (pool : List Sample), pool.length ≤ fuel →
      (∀ c ∈ (emitChunksGo bs fuel pool).1, c.length = bs) ∧
      (emitChunksGo bs fuel pool).1.flatten ++ (emitChunksGo bs fuel pool).2 = pool ∧
      (emitChunksGo bs fuel pool).2.length < bs
  | 0, pool, hf => by
    have hp : pool = [] := List.eq_nil_of_length_eq_zero (Nat.le_zero.mp hf)
    subst hp
    exact ⟨by simp [emitChunksGo], by simp [emitChunksGo], by simpa [emitChunksGo] using hbs⟩
  | fuel + 1, pool, hf => by
    by_cases hc : bs ≤ pool.length
    · have hdrop : (pool.drop bs).length ≤ fuel := by
        rw [List.length_drop]
        omega
      obtain ⟨ih1, ih2, ih3⟩ := emitChunksGo_spec bs hbs fuel (pool.drop bs) hdrop
      simp only [emitChunksGo, if_pos hc]
      refine ⟨?_, ?_, ih3⟩
      · intro c hcm
        rcases List.mem_cons.mp hcm with hcm | hcm
        · rw [hcm, List.length_take]
          omega
        · exact ih1 c hcm
      · rw [List.flatten_cons, List.append_assoc, ih2, List.take_append_drop]
    · simp only [emitChunksGo, if_neg hc]
      exact ⟨by simp, by simp, by omega⟩

/-- `emitChunks` satisfies the slicing specification. -/
lemma emitChunks_spec (bs : Nat) (hbs : 0 < bs) (pool : List Sample) :
    (∀ c ∈ (emitChunks bs pool).1, c.length = bs) ∧
    (emitChunks bs pool).1.flatten ++ (emitChunks bs pool).2 = pool ∧
    (emitChunks bs pool).2.length < bs :=
  emitChunksGo_spec bs hbs pool.length pool le_rfl

/-- C5: over any finite run of the batch generator starting from a pool
shorter than `batch_size`, every emitted chunk holds exactly `batch_size`
samples, the leftover pool stays shorter than `batch_size`, and the
emitted chunks followed by the leftover are exactly the initial pool
followed by the samples the players produced, round by round in player
index order — so batches are the leading `batch_size` samples of the FIFO
pool, removed at emission, with the remainder carried over. -/
theorem c5_batch_assembly (cfg : Config) (bs : Nat) (hbs : 0 < bs)
    (players : List PlayerState) (pool : List Sample) (rounds : List (List StepInput))
    (chunks : List (List Sample)) (rest : List Sample) (players2 : List PlayerState)
    (hpool : pool.length < bs)
    (h : generateBatches cfg bs players pool rounds = some (chunks, rest, players2)) :
    (∀ c ∈ chunks, c.length = bs) ∧ rest.length < bs ∧
    ∃ prod, producedSamples cfg players rounds = some prod ∧
      chunks.flatten ++ rest = pool ++ prod := by
  induction rounds generalizing players pool chunks rest players2 with
  | nil =>
    obtain ⟨h1, h2, h3⟩ : [] = chunks ∧ pool = rest ∧ players = players2 := by
      simpa [generateBatches] using h
    refine ⟨?_, h2 ▸ hpool, [], by simp [producedSamples], ?_⟩
    · intro c hcm
      rw [← h1] at hcm
      exact absurd hcm (List.not_mem_nil c)
    · rw [← h1, ← h2]
      simp
  | cons round rounds ih =>
    simp only [generateBatches] at h
    split at h
    · exact absurd h (by simp)
    · rename_i s players2' ha
      split at h
      · exact absurd h (by simp)
      · rename_i chunks2 rest2 players3 hg
        obtain ⟨h1, h2, h3⟩ :
            (emitChunks bs (pool ++ s)).1 ++ chunks2 = chunks ∧ rest2 = rest ∧
              players3 = players2 := by
          simpa using h
        obtain ⟨e1, e2, e3⟩ := emitChunks_spec bs hbs (pool ++ s)
        obtain ⟨ih1, ih2, prod, hprod, ih3⟩ := ih players2' _ chunks2 rest2 players3 e3 hg
        refine ⟨?_, h2 ▸ ih2, s ++ prod, ?_, ?_⟩
        · intro c hcm
          rw [← h1] at hcm
          rcases List.mem_append.mp hcm with hcm | hcm
          · exact e1 c hcm
          · exact ih1 c hcm
        · simp [producedSamples, ha, hprod]
        · rw [← h1, ← h2, List.flatten_append, List.append_assoc, ih3, ← List.append_assoc,
            e2, List.append_assoc]

/-- C5 witness: one player, one `done` round, `batch_size 1`. -/
theorem c5_batch_assembly_witness :
    (∀ c ∈ [[exSample1]], c.length = 1) ∧ ([] : List Sample).length < 1 ∧
    ∃ prod, producedSamples exCfg [exPS] [[exDoneInput]] = some prod ∧
      [[exSample1]].flatten ++ ([] : List Sample) = [] ++ prod :=
  c5_batch_assembly exCfg 1 (by decide) [exPS] [] [[exDoneInput]]
    [[exSample1]] [] [⟨7, [], 0, 0⟩] (by decide) (by with_unfolding_all rfl)

/-- C6: every batch the generator emits is the transposed pair
`((states, actions, advantages), (returns, returns))` of one emitted
chunk: the two target sequences coincide, and at every index the four
columns carry the state, action, advantage and return of the same
sample. -/
theorem c6_batch_structure (cfg : Config) (bs : Nat)
    (players : List PlayerState) (pool : List Sample) (rounds : List (List StepInput))
    (chunks : List (List Sample)) (rest : List Sample) (players2 : List PlayerState)
    (h : generateBatches cfg bs players pool rounds = some (chunks, rest, players2))
    (ch : List Sample) (hc : ch ∈ chunks) :
    (makeBatch ch).2.1 = (makeBatch ch).2.2 ∧
    ∀ i : Nat,
      ((makeBatch ch).1.1)[i]? = ch[i]?.map Sample.state ∧
      ((makeBatch ch).1.2.1)[i]? = ch[i]?.map Sample.action ∧
      ((makeBatch ch).1.2.2)[i]? = ch[i]?.map Sample.advantage ∧
      ((makeBatch ch).2.1)[i]? = ch[i]?.map Sample.ret := by
  refine ⟨rfl, fun i => ?_⟩
  simp [makeBatch]

/-- C6 witness: the emitted chunk of the one-round run. -/
theorem c6_batch_structure_witness :
    (makeBatch [exSample1]).2.1 = (makeBatch [exSample1]).2.2 ∧
    ∀ i : Nat,
      ((makeBatch [exSample1]).1.1)[i]? = ([exSample1] : List Sample)[i]?.map Sample.state ∧
      ((makeBatch [exSample1]).1.2.1)[i]? = ([exSample1] : List Sample)[i]?.map Sample.action ∧
      ((makeBatch [exSample1]).1.2.2)[i]? = ([exSample1] : List Sample)[i]?.map Sample.advantage ∧
      ((makeBatch [exSample1]).2.1)[i]? = ([exSample1] : List Sample)[i]?.map Sample.ret :=
  c6_batch_structure exCfg 1 [exPS] [] [[exDoneInput]] [[exSample1]] [] [⟨7, [], 0, 0⟩]
    (by with_unfolding_all rfl) [exSample1] (by simp)
